import Mathlib

/-!
Verification development for the p2p-share secure chunked transfer core
(`src/lib/crypto.js` and `src/lib/signaling.js`): the sender pipeline
`sendFileInChunks`, the receiver handler `useReceiver`, and the AES-GCM /
ECDH / SHA-256 primitive layer, shallowly embedded in Lean.

Modelling conventions:
* Bytes are `Nat`; byte buffers (`ArrayBuffer` / `Uint8Array`) are `List Nat`.
* The Web Crypto primitives (`generateECDH`, `exportPubKeyJwk`,
  `importPubKeyJwk`, `deriveAesKey`, `aesGcmEncrypt`, `aesGcmDecrypt`,
  `sha256`) are platform code, not repository code; they are modelled by an
  abstract `CryptoModel` whose relevant algebraic contracts (ECDH agreement,
  AEAD round-trip, decryption failure) appear as hypotheses of the theorems
  that need them.  JWK export/import is a lossless round trip, so a public
  key travels as its own value.  Key pairs are named by their private half;
  `pubOf` is the public half.
* Randomness (fresh IVs) is modelled by an IV source `ivs : Nat → List Nat`
  indexed by chunk number, and the 500 ms wall-clock throughput gate by a
  predicate `report : Nat → Bool` saying whether the timer has fired after
  chunk `i`.
* JavaScript division `(a / b) * 100` is modelled in `ℚ`; floating point
  rounding is monotone, so order and exact-100 facts transfer.
* The `ReadableStream` of `new Blob([fileArrayBuffer])` delivers the
  buffer as a sequence of reads whose granularity is
  implementation-defined; only its concatenation is contracted to be the
  buffer.  The outer `while (true) { reader.read() }` loop is therefore
  embedded as `senderOuter` over an arbitrary read sequence `segs` (with
  `segs.flatten = file` as a hypothesis), and the inner `while (offset <
  value.byteLength)` slicing loop as `senderLoop`.  `sendFile` is the
  single-read instance (`sendFileStream_single`), adequate for the
  statements that are insensitive to read boundaries (round trip, head
  frame, progress, which depend only on the concatenation and cumulative
  byte counts); the chunk-size claim is settled over the general
  `sendFileStream`, where read boundaries do matter.
* `setStatus` strings are abstracted into the `RStatus` marker type (the MB
  formatting of the "Receiving" message is presentation only);
  `setProgress` / `onProgress` calls are logged in order in `progressLog`;
  `URL.createObjectURL(blob)` + `setDownloadUrl` is modelled by storing the
  blob's bytes in `downloadUrl`.
-/

namespace P2PShare

abbrev Byte := Nat

/-- `const CHUNK = 64 * 1024` in `sendFileInChunks`. -/
def CHUNK : Nat := 64 * 1024

/-- Abstract model of the Web Crypto primitives used by `crypto.js`:
`pubOf` is `exportPubKeyJwk ∘ (publicKey of)` (JWK round-trips losslessly),
`derive` is `deriveAesKey` (ECDH bits hashed to an AES-GCM key),
`enc`/`dec` are `aesGcmEncrypt`/`aesGcmDecrypt` at a given IV (`dec` returns
`none` where the real call throws an authentication error), and `hashHex`
is `sha256` rendered as a hex string. -/
structure CryptoModel where
  pubOf : Nat → Nat
  derive : Nat → Nat → Nat
  enc : Nat → List Nat → List Byte → List Byte
  dec : Nat → List Nat → List Byte → Option (List Byte)
  hashHex : List Byte → String

/-- The parsed `meta` message `{ type:"meta", name, size, hash, ecdhPub }`.
`hash` is an `Option` because the receiver's end handler guards on
`meta?.hash` being truthy, i.e. present and non-empty. -/
structure MetaMsg where
  name : String
  size : Nat
  hash : Option String
  ecdhPub : Nat
deriving DecidableEq

/-- The parsed `chunk` header `{ type:"chunk", iv, len }`. -/
structure ChunkMsg where
  iv : List Nat
  len : Nat
deriving DecidableEq

/-- The four text-frame kinds of the wire protocol. -/
inductive Msg where
  | meta (m : MetaMsg)
  | ekey (pub : Nat)
  | chunk (c : ChunkMsg)
  | endMsg
deriving DecidableEq

/-- A DataChannel frame: UTF-8 text (a JSON message) or binary ciphertext. -/
inductive Frame where
  | text (m : Msg)
  | binary (data : List Byte)
deriving DecidableEq

/-- A JSON value as far as the meta object needs: string, number, or an
exported JWK public key. -/
inductive JVal where
  | s (v : String)
  | n (v : Nat)
  | jwk (v : Nat)
deriving DecidableEq

/-- `JSON.stringify` of the sender's object literal
`{ type: "meta", name: file.name, size: file.size, hash: fileHash, ecdhPub: myPubJwk }`
as an ordered key/value list; an absent (`undefined`) `hash` field is
omitted, as `JSON.stringify` omits it. -/
def serializeMeta (m : MetaMsg) : List (String × JVal) :=
  [("type", JVal.s "meta"), ("name", JVal.s m.name), ("size", JVal.n m.size)] ++
    (match m.hash with
      | some h => [("hash", JVal.s h)]
      | none => []) ++
    [("ecdhPub", JVal.jwk m.ecdhPub)]

/-- JS truthiness of `meta?.hash`: an absent field or the empty string is
falsy, any other string truthy. -/
def hashTruthy : Option String → Bool
  | none => false
  | some h => h != ""

/-- The receiver status line, abstracting the four `setStatus` calls of
`useReceiver`. -/
inductive RStatus where
  | waitingMeta
  | receiving (name : String) (size : Nat)
  | integrityFailed
  | completed
deriving DecidableEq

/-- The mutable state captured by the closures of `useReceiver`, plus the
observable outputs: `progressLog` records the `setProgress` calls in order,
`downloadUrl` the bytes handed to `setDownloadUrl`, `sent` the frames the
receiver itself emits (its `ekey` reply). -/
structure RecvState where
  meta : Option MetaMsg
  receivedBytes : Nat
  chunks : List (List Byte)
  expectingBinary : Nat
  pendingChunkInfo : Option ChunkMsg
  aesKey : Option Nat
  myPriv : Nat
  status : RStatus
  downloadUrl : Option (List Byte)
  progressLog : List ℚ
  sent : List Msg
deriving DecidableEq

/-- One reaction of the `dc.onmessage` handler installed by
`useReceiver.bind`, transcribed branch by branch:
* `meta`: store the message, set the receiving status, derive the AES key
  from the sender's `ecdhPub`, reply with `ekey`;
* `chunk`: `pendingChunkInfo = msg; expectingBinary = msg.len` (the previous
  pending header, if any, is overwritten);
* `end`: build the blob from the accumulated chunks, hash it, and fail with
  the integrity status iff `meta?.hash` is truthy and differs from the
  computed hash; otherwise publish the blob as the download URL;
* `ekey` (and any unknown or unparsable text): falls through every branch,
  no effect;
* binary: dropped when no header is pending (`if (!pendingChunkInfo) return`);
  otherwise decrypt with the stashed IV — a `null` key or a failed
  decryption throws, aborting the handler before any state was mutated —
  then append the plaintext, count its bytes, clear the pending header, and
  report progress when `meta?.size` is truthy (nonzero). -/
def recvStep (C : CryptoModel) (s : RecvState) (f : Frame) : RecvState :=
  match f with
  | Frame.text m =>
    match m with
    | Msg.meta mm =>
      { s with
        meta := some mm
        status := RStatus.receiving mm.name mm.size
        aesKey := some (C.derive s.myPriv mm.ecdhPub)
        sent := s.sent ++ [Msg.ekey (C.pubOf s.myPriv)] }
    | Msg.chunk cm =>
      { s with pendingChunkInfo := some cm, expectingBinary := cm.len }
    | Msg.endMsg =>
      match s.meta with
      | some mm =>
        if hashTruthy mm.hash ∧ mm.hash ≠ some (C.hashHex s.chunks.flatten) then
          { s with status := RStatus.integrityFailed }
        else
          { s with downloadUrl := some s.chunks.flatten, status := RStatus.completed }
      | none =>
        { s with downloadUrl := some s.chunks.flatten, status := RStatus.completed }
    | Msg.ekey _ => s
  | Frame.binary data =>
    match s.pendingChunkInfo with
    | none => s
    | some cm =>
      match s.aesKey with
      | none => s
      | some k =>
        match C.dec k cm.iv data with
        | none => s
        | some pt =>
          let s2 : RecvState :=
            { s with
              chunks := s.chunks ++ [pt]
              receivedBytes := s.receivedBytes + pt.length
              pendingChunkInfo := none
              expectingBinary := 0 }
          match s.meta with
          | some mm =>
            if mm.size ≠ 0 then
              { s2 with progressLog := s2.progressLog ++
                  [((s.receivedBytes + pt.length : ℚ) / (mm.size : ℚ)) * 100] }
            else s2
          | none => s2

/-- Feed a frame sequence to the receiver in order. -/
def recvRun (C : CryptoModel) (s : RecvState) (fs : List Frame) : RecvState :=
  fs.foldl (recvStep C) s

/-- The receiver state right after `bind`: fresh key pair generated, all
accumulators empty, waiting for metadata. -/
def initRecv (recvPriv : Nat) : RecvState :=
  { meta := none, receivedBytes := 0, chunks := [], expectingBinary := 0,
    pendingChunkInfo := none, aesKey := none, myPriv := recvPriv,
    status := RStatus.waitingMeta, downloadUrl := none, progressLog := [],
    sent := [] }

/-- The inner chunking loop of `sendFileInChunks` (`while (offset <
value.byteLength)`), applied to one stream-delivered read `v`: slice off up
to `CHUNK` bytes, encrypt the slice under the session key with the next
fresh IV, emit the `chunk` header then the binary ciphertext, advance the
sent counter, and log `(sent / total) * 100` when the 500 ms gate fires.
Returns the emitted frames and the logged progress values. -/
def senderLoop (C : CryptoModel) (key : Nat) (ivs : Nat → List Nat)
    (report : Nat → Bool) (total : Nat) (v : List Byte) (sent : Nat)
    (i : Nat) : List Frame × List ℚ :=
  if hv : v = [] then ([], [])
  else
    let slice := v.take CHUNK
    let ct := C.enc key (ivs i) slice
    let rest := senderLoop C key ivs report total (v.drop CHUNK)
      (sent + slice.length) (i + 1)
    (Frame.text (Msg.chunk ⟨ivs i, ct.length⟩) :: Frame.binary ct :: rest.1,
      (if report i then
        [((sent + slice.length : ℚ) / (total : ℚ)) * 100]
      else []) ++ rest.2)
termination_by v.length
decreasing_by
  simpa [List.length_drop] using Nat.sub_lt (List.length_pos.mpr hv) (by decide)

/-- The observable output of one `sendFileInChunks` call: the frames sent on
the DataChannel in order, and the `onProgress` percentages in order. -/
structure SenderRun where
  frames : List Frame
  progressLog : List ℚ
deriving DecidableEq

/-- `sendFileInChunks(dc, file, onProgress, setStatus)` for a sender whose
key pair is `myPriv` and whose peer answered the `meta` with public key
`peerPub` (the value `waitForPeerPubKey` resolves to): hash the file, emit
the `meta` frame carrying name, size, hash and own public key, derive the
session key, run the chunk loop, emit `end`, and report a final progress of
exactly 100.  This is the single-read instance of `sendFileStream` (the
stream delivers the whole in-memory buffer in one read,
`sendFileStream_single`). -/
def sendFile (C : CryptoModel) (myPriv peerPub : Nat) (ivs : Nat → List Nat)
    (report : Nat → Bool) (name : String) (file : List Byte) : SenderRun :=
  let metaMsg : MetaMsg :=
    { name := name, size := file.length, hash := some (C.hashHex file),
      ecdhPub := C.pubOf myPriv }
  let lp := senderLoop C (C.derive myPriv peerPub) ivs report file.length file 0 0
  { frames := Frame.text (Msg.meta metaMsg) :: lp.1 ++ [Frame.text Msg.endMsg],
    progressLog := lp.2 ++ [100] }

/-- Specification-shaped 64 KiB partition of a buffer: the slices the
sender's loop walks through, in order. -/
def chunkSegment (v : List Byte) : List (List Byte) :=
  if hv : v = [] then []
  else v.take CHUNK :: chunkSegment (v.drop CHUNK)
termination_by v.length
decreasing_by
  simpa [List.length_drop] using Nat.sub_lt (List.length_pos.mpr hv) (by decide)

/-- The frame pairs (header then body) the sender emits for a chunk list,
starting at IV index `i`: one `chunk` header carrying the fresh IV and the
ciphertext length, immediately followed by exactly one binary frame. -/
def chunkFramesFrom (C : CryptoModel) (key : Nat) (ivs : Nat → List Nat)
    (i : Nat) : List (List Byte) → List Frame
  | [] => []
  | c :: cs =>
    Frame.text (Msg.chunk ⟨ivs i, (C.enc key (ivs i) c).length⟩) ::
      Frame.binary (C.enc key (ivs i) c) ::
        chunkFramesFrom C key ivs (i + 1) cs

/-- The outer reader loop of `sendFileInChunks` (`while (true) { const
{ value, done } = await reader.read(); if (done) break; ... }`): each
delivered read `v` is sliced independently by the inner loop
(`senderLoop`) — leftover bytes are not carried over to the next read —
while the running sent counter and the fresh-IV draw index continue across
reads.  The read sequence `segs` is a parameter because the `Blob` stream's
read granularity is implementation-defined. -/
def senderOuter (C : CryptoModel) (key : Nat) (ivs : Nat → List Nat)
    (report : Nat → Bool) (total : Nat) :
    List (List Byte) → Nat → Nat → List Frame × List ℚ
  | [], _, _ => ([], [])
  | v :: vs, sent, i =>
    ((senderLoop C key ivs report total v sent i).1 ++
        (senderOuter C key ivs report total vs (sent + v.length)
          (i + (chunkSegment v).length)).1,
      (senderLoop C key ivs report total v sent i).2 ++
        (senderOuter C key ivs report total vs (sent + v.length)
          (i + (chunkSegment v).length)).2)

/-- `sendFileInChunks` with the `ReadableStream` of
`new Blob([fileArrayBuffer])` delivering the buffer as the read sequence
`segs` (the stream contract fixes only that the reads concatenate to the
buffer, not their sizes): hash the full in-memory buffer, emit `meta`,
derive the session key, run the reader loop over the delivered reads, emit
`end` and the final progress 100. -/
def sendFileStream (C : CryptoModel) (myPriv peerPub : Nat)
    (ivs : Nat → List Nat) (report : Nat → Bool) (name : String)
    (file : List Byte) (segs : List (List Byte)) : SenderRun :=
  let metaMsg : MetaMsg :=
    { name := name, size := file.length, hash := some (C.hashHex file),
      ecdhPub := C.pubOf myPriv }
  let lp := senderOuter C (C.derive myPriv peerPub) ivs report file.length
    segs 0 0
  { frames := Frame.text (Msg.meta metaMsg) :: lp.1 ++ [Frame.text Msg.endMsg],
    progressLog := lp.2 ++ [100] }

/-- The progress values the sender logs over a chunk list, starting from
`sent` bytes already sent at chunk index `i`. -/
def senderProgress (report : Nat → Bool) (total : Nat) :
    Nat → Nat → List (List Byte) → List ℚ
  | _, _, [] => []
  | sent, i, c :: cs =>
    (if report i then
      [((sent + c.length : ℚ) / (total : ℚ)) * 100]
    else []) ++ senderProgress report total (sent + c.length) (i + 1) cs

/-- The progress values the receiver logs while decrypting a chunk list,
starting from `rb` received bytes, against an expected size `size`. -/
def recvProgress (size : Nat) : Nat → List (List Byte) → List ℚ
  | _, [] => []
  | rb, c :: cs =>
    (if size ≠ 0 then [((rb + c.length : ℚ) / (size : ℚ)) * 100] else []) ++
      recvProgress size (rb + c.length) cs

/-! ## Chunking lemmas -/

theorem chunkSegment_nil : chunkSegment [] = [] := by
  rw [chunkSegment]
  simp

theorem chunkSegment_cons (v : List Byte) (hv : v ≠ []) :
    chunkSegment v = v.take CHUNK :: chunkSegment (v.drop CHUNK) := by
  rw [chunkSegment]
  simp [hv]

theorem chunkSegment_flatten (v : List Byte) : (chunkSegment v).flatten = v := by
  by_cases hv : v = []
  · subst hv
    simp [chunkSegment_nil]
  · rw [chunkSegment_cons v hv]
    rw [List.flatten_cons, chunkSegment_flatten (v.drop CHUNK)]
    exact List.take_append_drop CHUNK v
termination_by v.length
decreasing_by
  simpa [List.length_drop] using Nat.sub_lt (List.length_pos.mpr hv) (by decide)

theorem chunkSegment_length_sum (v : List Byte) :
    ((chunkSegment v).map List.length).sum = v.length := by
  have h := congrArg List.length (chunkSegment_flatten v)
  simpa [List.length_flatten] using h

theorem chunkSegment_mem (v : List Byte) (c : List Byte)
    (hc : c ∈ chunkSegment v) : c ≠ [] ∧ c.length ≤ CHUNK := by
  by_cases hv : v = []
  · subst hv
    simp [chunkSegment_nil] at hc
  · rw [chunkSegment_cons v hv] at hc
    rcases List.mem_cons.mp hc with h | h
    · subst h
      constructor
      · simp [List.take_eq_nil_iff, hv]
        decide
      · simpa using List.length_take_le CHUNK v
    · exact chunkSegment_mem (v.drop CHUNK) c h
termination_by v.length
decreasing_by
  simpa [List.length_drop] using Nat.sub_lt (List.length_pos.mpr hv) (by decide)

theorem chunkSegment_ne_nil_of_ne_nil (v : List Byte) (hv : v ≠ []) :
    chunkSegment v ≠ [] := by
  rw [chunkSegment_cons v hv]
  simp

theorem chunkSegment_full (v : List Byte) :
    ∀ c ∈ (chunkSegment v).dropLast, c.length = CHUNK := by
  intro c hc
  by_cases hv : v = []
  · subst hv
    simp [chunkSegment_nil] at hc
  · rw [chunkSegment_cons v hv] at hc
    by_cases hd : v.drop CHUNK = []
    · rw [hd, chunkSegment_nil] at hc
      simp at hc
    · have hrest : chunkSegment (v.drop CHUNK) ≠ [] :=
        chunkSegment_ne_nil_of_ne_nil (v.drop CHUNK) hd
      rw [List.dropLast_cons_of_ne_nil hrest] at hc
      rcases List.mem_cons.mp hc with h | h
      · subst h
        have hlt : CHUNK < v.length := by
          by_contra hle
          exact hd (List.drop_eq_nil_of_le (Nat.le_of_not_lt hle))
        simp [List.length_take, Nat.min_eq_left (Nat.le_of_lt hlt)]
      · exact chunkSegment_full (v.drop CHUNK) c h
termination_by v.length
decreasing_by
  simpa [List.length_drop] using Nat.sub_lt (List.length_pos.mpr hv) (by decide)

/-! ## Sender loop lemmas -/

theorem senderLoop_nil (C : CryptoModel) (key : Nat) (ivs : Nat → List Nat)
    (report : Nat → Bool) (total sent i : Nat) :
    senderLoop C key ivs report total [] sent i = ([], []) := by
  rw [senderLoop]
  simp

theorem senderLoop_cons (C : CryptoModel) (key : Nat) (ivs : Nat → List Nat)
    (report : Nat → Bool) (total : Nat) (v : List Byte) (hv : v ≠ [])
    (sent i : Nat) :
    senderLoop C key ivs report total v sent i =
      (Frame.text (Msg.chunk ⟨ivs i, (C.enc key (ivs i) (v.take CHUNK)).length⟩) ::
        Frame.binary (C.enc key (ivs i) (v.take CHUNK)) ::
        (senderLoop C key ivs report total (v.drop CHUNK)
          (sent + (v.take CHUNK).length) (i + 1)).1,
      (if report i then
        [((sent + (v.take CHUNK).length : ℚ) / (total : ℚ)) * 100]
      else []) ++
        (senderLoop C key ivs report total (v.drop CHUNK)
          (sent + (v.take CHUNK).length) (i + 1)).2) := by
  rw [senderLoop]
  simp [hv]

theorem senderLoop_frames (C : CryptoModel) (key : Nat) (ivs : Nat → List Nat)
    (report : Nat → Bool) (total : Nat) (v : List Byte) (sent i : Nat) :
    (senderLoop C key ivs report total v sent i).1 =
      chunkFramesFrom C key ivs i (chunkSegment v) := by
  by_cases hv : v = []
  · subst hv
    simp [senderLoop_nil, chunkSegment_nil, chunkFramesFrom]
  · rw [senderLoop_cons C key ivs report total v hv sent i,
      chunkSegment_cons v hv]
    simp only [chunkFramesFrom]
    rw [senderLoop_frames C key ivs report total (v.drop CHUNK)
      (sent + (v.take CHUNK).length) (i + 1)]
termination_by v.length
decreasing_by
  simpa [List.length_drop] using Nat.sub_lt (List.length_pos.mpr hv) (by decide)

theorem senderLoop_log (C : CryptoModel) (key : Nat) (ivs : Nat → List Nat)
    (report : Nat → Bool) (total : Nat) (v : List Byte) (sent i : Nat) :
    (senderLoop C key ivs report total v sent i).2 =
      senderProgress report total sent i (chunkSegment v) := by
  by_cases hv : v = []
  · subst hv
    simp [senderLoop_nil, chunkSegment_nil, senderProgress]
  · rw [senderLoop_cons C key ivs report total v hv sent i,
      chunkSegment_cons v hv]
    simp only [senderProgress]
    rw [senderLoop_log C key ivs report total (v.drop CHUNK)
      (sent + (v.take CHUNK).length) (i + 1)]
termination_by v.length
decreasing_by
  simpa [List.length_drop] using Nat.sub_lt (List.length_pos.mpr hv) (by decide)

theorem chunkFramesFrom_append (C : CryptoModel) (key : Nat)
    (ivs : Nat → List Nat) (xs ys : List (List Byte)) :
    ∀ i, chunkFramesFrom C key ivs i (xs ++ ys) =
      chunkFramesFrom C key ivs i xs ++
        chunkFramesFrom C key ivs (i + xs.length) ys := by
  induction xs with
  | nil => intro i; simp [chunkFramesFrom]
  | cons c cs ih =>
    intro i
    simp only [List.cons_append, chunkFramesFrom, List.length_cons,
      List.append_eq, ih (i + 1)]
    rw [show i + 1 + cs.length = i + (cs.length + 1) from by omega]

theorem senderOuter_frames (C : CryptoModel) (key : Nat)
    (ivs : Nat → List Nat) (report : Nat → Bool) (total : Nat)
    (segs : List (List Byte)) :
    ∀ sent i, (senderOuter C key ivs report total segs sent i).1 =
      chunkFramesFrom C key ivs i (segs.flatMap chunkSegment) := by
  induction segs with
  | nil =>
    intro sent i
    simp [senderOuter, chunkFramesFrom]
  | cons v vs ih =>
    intro sent i
    simp only [senderOuter, List.flatMap_cons, chunkFramesFrom_append,
      senderLoop_frames, ih (sent + v.length) (i + (chunkSegment v).length)]

theorem flatMap_chunkSegment_flatten (segs : List (List Byte)) :
    (segs.flatMap chunkSegment).flatten = segs.flatten := by
  induction segs with
  | nil => rfl
  | cons v vs ih =>
    simp only [List.flatMap_cons, List.flatten_append, List.flatten_cons,
      chunkSegment_flatten, ih]

theorem flatMap_chunkSegment_nil (segs : List (List Byte))
    (h : segs.flatten = []) : segs.flatMap chunkSegment = [] := by
  induction segs with
  | nil => rfl
  | cons v vs ih =>
    rw [List.flatten_cons] at h
    obtain ⟨hv, hvs⟩ := List.append_eq_nil.mp h
    rw [List.flatMap_cons, hv, chunkSegment_nil, List.nil_append]
    exact ih hvs

theorem sendFileStream_single (C : CryptoModel) (myPriv peerPub : Nat)
    (ivs : Nat → List Nat) (report : Nat → Bool) (name : String)
    (file : List Byte) :
    sendFileStream C myPriv peerPub ivs report name file [file] =
      sendFile C myPriv peerPub ivs report name file := by
  simp [sendFileStream, sendFile, senderOuter]

/-! ## Receiver run lemmas -/

theorem recvRun_nil (C : CryptoModel) (s : RecvState) : recvRun C s [] = s := rfl

theorem recvRun_cons (C : CryptoModel) (s : RecvState) (f : Frame)
    (fs : List Frame) : recvRun C s (f :: fs) = recvRun C (recvStep C s f) fs := rfl

theorem recvRun_append (C : CryptoModel) (s : RecvState) (fs gs : List Frame) :
    recvRun C s (fs ++ gs) = recvRun C (recvRun C s fs) gs := by
  simp [recvRun, List.foldl_append]

theorem recvStep_header (C : CryptoModel) (s : RecvState) (cm : ChunkMsg) :
    recvStep C s (Frame.text (Msg.chunk cm)) =
      { s with pendingChunkInfo := some cm, expectingBinary := cm.len } := rfl

theorem recvStep_meta (C : CryptoModel) (s : RecvState) (mm : MetaMsg) :
    recvStep C s (Frame.text (Msg.meta mm)) =
      { s with
        meta := some mm
        status := RStatus.receiving mm.name mm.size
        aesKey := some (C.derive s.myPriv mm.ecdhPub)
        sent := s.sent ++ [Msg.ekey (C.pubOf s.myPriv)] } := rfl

theorem recvStep_header_mk (C : CryptoModel) (cm : ChunkMsg)
    (mo : Option MetaMsg) (rb : Nat) (ch : List (List Byte)) (eb : Nat)
    (pc : Option ChunkMsg) (ak : Option Nat) (pv : Nat) (st : RStatus)
    (du : Option (List Byte)) (pl : List ℚ) (snt : List Msg) :
    recvStep C ⟨mo, rb, ch, eb, pc, ak, pv, st, du, pl, snt⟩
        (Frame.text (Msg.chunk cm)) =
      ⟨mo, rb, ch, cm.len, some cm, ak, pv, st, du, pl, snt⟩ := rfl

theorem recvStep_body (C : CryptoModel) (key : Nat) (iv : List Nat)
    (c : List Byte) (hRound : C.dec key iv (C.enc key iv c) = some c)
    (mm : MetaMsg) (rb : Nat) (ch : List (List Byte)) (eb : Nat) (pv : Nat)
    (st : RStatus) (du : Option (List Byte)) (pl : List ℚ) (snt : List Msg) :
    recvStep C
        ⟨some mm, rb, ch, eb, some ⟨iv, (C.enc key iv c).length⟩, some key,
          pv, st, du, pl, snt⟩
        (Frame.binary (C.enc key iv c)) =
      ⟨some mm, rb + c.length, ch ++ [c], 0, none, some key, pv, st, du,
        pl ++ (if mm.size ≠ 0 then
          [((rb + c.length : ℚ) / (mm.size : ℚ)) * 100] else []),
        snt⟩ := by
  simp only [recvStep, hRound]
  by_cases hsz : mm.size ≠ 0 <;> simp [hsz]

theorem recvRun_chunkFrames (C : CryptoModel) (key : Nat) (ivs : Nat → List Nat)
    (cs : List (List Byte)) (i : Nat)
    (hRound : ∀ (iv : List Nat) (p : List Byte),
      C.dec key iv (C.enc key iv p) = some p)
    (mm : MetaMsg) (rb : Nat) (ch : List (List Byte)) (pv : Nat) (st : RStatus)
    (du : Option (List Byte)) (pl : List ℚ) (snt : List Msg) :
    recvRun C ⟨some mm, rb, ch, 0, none, some key, pv, st, du, pl, snt⟩
        (chunkFramesFrom C key ivs i cs) =
      ⟨some mm, rb + (cs.map List.length).sum, ch ++ cs, 0, none, some key,
        pv, st, du, pl ++ recvProgress mm.size rb cs, snt⟩ := by
  induction cs generalizing i rb ch pl with
  | nil => simp [chunkFramesFrom, recvRun_nil, recvProgress]
  | cons c cs ih =>
    rw [show chunkFramesFrom C key ivs i (c :: cs) =
        Frame.text (Msg.chunk ⟨ivs i, (C.enc key (ivs i) c).length⟩) ::
          Frame.binary (C.enc key (ivs i) c) ::
            chunkFramesFrom C key ivs (i + 1) cs from rfl]
    rw [recvRun_cons, recvRun_cons, recvStep_header_mk]
    rw [recvStep_body C key (ivs i) c (hRound (ivs i) c)]
    rw [ih (i + 1) (rb + c.length) (ch ++ [c]) _]
    simp [recvProgress, List.append_assoc, Nat.add_assoc]

theorem recvStep_meta_init (C : CryptoModel) (recvPriv : Nat) (nm : String)
    (sz : Nat) (hs : Option String) (pk : Nat) :
    recvStep C (initRecv recvPriv) (Frame.text (Msg.meta ⟨nm, sz, hs, pk⟩)) =
      ⟨some ⟨nm, sz, hs, pk⟩, 0, [], 0, none, some (C.derive recvPriv pk),
        recvPriv, RStatus.receiving nm sz, none, [],
        [Msg.ekey (C.pubOf recvPriv)]⟩ := rfl

theorem recvStep_endMsg_mk (C : CryptoModel) (mm : MetaMsg) (rb : Nat)
    (ch : List (List Byte)) (eb : Nat) (pc : Option ChunkMsg) (ak : Option Nat)
    (pv : Nat) (st : RStatus) (du : Option (List Byte)) (pl : List ℚ)
    (snt : List Msg) :
    recvStep C ⟨some mm, rb, ch, eb, pc, ak, pv, st, du, pl, snt⟩
        (Frame.text Msg.endMsg) =
      if hashTruthy mm.hash ∧ mm.hash ≠ some (C.hashHex ch.flatten) then
        ⟨some mm, rb, ch, eb, pc, ak, pv, RStatus.integrityFailed, du, pl, snt⟩
      else
        ⟨some mm, rb, ch, eb, pc, ak, pv, RStatus.completed, some ch.flatten,
          pl, snt⟩ := by
  simp only [recvStep]

/-! ## Concrete crypto models for the closed witnesses and counterexamples -/

/-- A concrete `CryptoModel` satisfying the ECDH-agreement and AEAD
round-trip contracts: shared key by addition, encryption the identity,
hash the length rendered as a string. -/
def trivC : CryptoModel where
  pubOf := fun n => n
  derive := fun a b => a + b
  enc := fun _ _ p => p
  dec := fun _ _ c => some c
  hashHex := fun l => toString l.length

/-- `trivC` with a decryption that always fails authentication. -/
def noneC : CryptoModel :=
  { trivC with dec := fun _ _ _ => none }

/-- `trivC` with a constant lowercase digest, to probe the case sensitivity
of the receiver's final hash comparison. -/
def caseC : CryptoModel :=
  { trivC with hashHex := fun _ => "ab" }

/-- A deterministic IV source: chunk `i` draws IV `[i]`. -/
def iv0 : Nat → List Nat := fun n => [n]

/-- A throughput gate that always fires. -/
def rp0 : Nat → Bool := fun _ => true

/-! ## C1: sender-to-receiver round trip -/

/-- C1: for every plaintext of any size, running the sender pipeline
(64 KiB chunking, per-chunk AES-GCM encryption, header+body framing) and
feeding the resulting frame sequence in order to the receiver (decryption,
accumulation, reassembly at `end`) reproduces the original content
byte-for-byte: the receiver completes and exposes exactly the original
bytes.  The two hypotheses are the platform crypto contracts: ECDH key
agreement and AEAD round-trip correctness. -/
theorem transfer_roundtrip (C : CryptoModel) (sendPriv recvPriv : Nat)
    (ivs : Nat → List Nat) (report : Nat → Bool) (name : String)
    (file : List Byte)
    (hComm : ∀ a b : Nat, C.derive a (C.pubOf b) = C.derive b (C.pubOf a))
    (hRound : ∀ (k : Nat) (iv : List Nat) (p : List Byte),
      C.dec k iv (C.enc k iv p) = some p) :
    (recvRun C (initRecv recvPriv)
        (sendFile C sendPriv (C.pubOf recvPriv) ivs report name file).frames).downloadUrl
      = some file ∧
    (recvRun C (initRecv recvPriv)
        (sendFile C sendPriv (C.pubOf recvPriv) ivs report name file).frames).status
      = RStatus.completed := by
  have hframes : (sendFile C sendPriv (C.pubOf recvPriv) ivs report name
      file).frames =
      Frame.text (Msg.meta ⟨name, file.length, some (C.hashHex file),
          C.pubOf sendPriv⟩) ::
        (chunkFramesFrom C (C.derive sendPriv (C.pubOf recvPriv)) ivs 0
            (chunkSegment file) ++
          [Frame.text Msg.endMsg]) := by
    simp [sendFile, senderLoop_frames]
  rw [hframes, recvRun_cons, recvStep_meta_init, hComm recvPriv sendPriv,
    recvRun_append,
    recvRun_chunkFrames C (C.derive sendPriv (C.pubOf recvPriv)) ivs
      (chunkSegment file) 0
      (hRound (C.derive sendPriv (C.pubOf recvPriv))),
    recvRun_cons, recvRun_nil, recvStep_endMsg_mk]
  rw [if_neg]
  · simp [chunkSegment_flatten]
  · intro hcond
    exact hcond.2 (by simp [chunkSegment_flatten])

/-- C1 witness: the round trip evaluated at a concrete three-byte file under
the concrete model `trivC`. -/
theorem transfer_roundtrip_witness :
    (recvRun trivC (initRecv 1)
        (sendFile trivC 0 (trivC.pubOf 1) iv0 rp0 "f" [1, 2, 3]).frames).downloadUrl
      = some [1, 2, 3] ∧
    (recvRun trivC (initRecv 1)
        (sendFile trivC 0 (trivC.pubOf 1) iv0 rp0 "f" [1, 2, 3]).frames).status
      = RStatus.completed :=
  transfer_roundtrip trivC 0 1 iv0 rp0 "f" [1, 2, 3]
    (fun a b => Nat.add_comm a b) (fun _ _ _ => rfl)

/-! ## Concrete receiver states for counterexamples and witnesses -/

/-- A session mid-transfer: metadata recorded (expected hash `"h"`), AES key
derived, a `chunk` header `⟨[9], 7⟩` stashed with its body still pending. -/
def sMid : RecvState :=
  ⟨some ⟨"f", 9, some "h", 4⟩, 0, [], 7, some ⟨[9], 7⟩, some 4, 1,
    RStatus.receiving "f" 9, none, [], []⟩

/-- A session about to verify: metadata recorded with hash `"AB"`, one
accumulated plaintext chunk, no pending header. -/
def sCase : RecvState :=
  ⟨some ⟨"f", 1, some "AB", 4⟩, 1, [[1]], 0, none, some 4, 1,
    RStatus.receiving "f" 1, none, [], []⟩

/-! ## C2: failed chunk authentication -/

/-- C2 counterexample: a session mid-transfer (status `receiving`, header
stashed, key derived) receives a ciphertext that fails AES-GCM
authentication (`noneC.dec` always fails): the receiver state is completely
unchanged — there is no FAILED transition, no surfaced
integrity/authenticity failure and no abort; the chunk's data is silently
skipped. -/
theorem auth_failure_no_abort_cex :
    recvStep noneC sMid (Frame.binary [1, 2]) = sMid := rfl

/-- C2 amended: when a received chunk fails AES-GCM authentication, the
thrown error only aborts that handler invocation before any state was
mutated: the receiver state is left entirely unchanged — the chunk's data
is silently skipped, the stashed header stays pending, and no FAILED state
or failure status is surfaced (a corrupted chunk is only caught by the
final `end` hash check, when a hash was recorded).  The same holds when the
body arrives before any key was derived. -/
theorem auth_failure_leaves_state (C : CryptoModel) (s : RecvState)
    (cm : ChunkMsg) (d : List Byte) (hp : s.pendingChunkInfo = some cm) :
    (s.aesKey = none → recvStep C s (Frame.binary d) = s) ∧
    (∀ k, s.aesKey = some k → C.dec k cm.iv d = none →
      recvStep C s (Frame.binary d) = s) := by
  constructor
  · intro hk
    simp only [recvStep, hp, hk]
  · intro k hk hd
    simp only [recvStep, hp, hk, hd]

/-- C2 witness: the amended theorem evaluated at the concrete mid-transfer
state `sMid` under the always-failing decryption model. -/
theorem auth_failure_leaves_state_witness :
    (sMid.aesKey = none → recvStep noneC sMid (Frame.binary [1]) = sMid) ∧
    (∀ k, sMid.aesKey = some k →
      noneC.dec k (⟨[9], 7⟩ : ChunkMsg).iv [1] = none →
      recvStep noneC sMid (Frame.binary [1]) = sMid) :=
  auth_failure_leaves_state noneC sMid ⟨[9], 7⟩ [1] rfl

/-! ## C3: final integrity comparison -/

/-- C3 counterexample: the recorded hash `"AB"` and the computed digest
`"ab"` differ only in letter case, yet the transfer does not complete: the
session ends with the integrity-failed status and no download URL. -/
theorem case_differing_hash_fails_cex :
    (recvStep caseC sCase (Frame.text Msg.endMsg)).status =
      RStatus.integrityFailed ∧
    (recvStep caseC sCase (Frame.text Msg.endMsg)).downloadUrl = none := by
  exact ⟨rfl, rfl⟩

/-- C3 amended: on `end` the receiver concatenates the accumulated chunks,
hashes them, and compares the digest to the recorded hash by exact string
equality (`!==`), not case-insensitively: any difference — including one
of letter case only — sets the integrity-failed status and exposes no
download URL (the assembled output is never published as valid); only exact
equality completes the session and exposes the output. -/
theorem final_hash_exact_comparison (C : CryptoModel) (s : RecvState)
    (mm : MetaMsg) (hm : s.meta = some mm) (ht : hashTruthy mm.hash = true) :
    (mm.hash ≠ some (C.hashHex s.chunks.flatten) →
      recvStep C s (Frame.text Msg.endMsg) =
        { s with status := RStatus.integrityFailed }) ∧
    (mm.hash = some (C.hashHex s.chunks.flatten) →
      recvStep C s (Frame.text Msg.endMsg) =
        { s with downloadUrl := some s.chunks.flatten,
                 status := RStatus.completed }) := by
  constructor
  · intro hne
    simp only [recvStep, hm]
    rw [if_pos ⟨ht, hne⟩]
  · intro heq
    simp only [recvStep, hm]
    rw [if_neg]
    rintro ⟨-, hne⟩
    exact hne heq

/-- C3 witness: the amended theorem evaluated at the concrete state `sCase`
(recorded hash `"AB"`, computed digest `"ab"`). -/
theorem final_hash_exact_comparison_witness :
    ((⟨"f", 1, some "AB", 4⟩ : MetaMsg).hash ≠
        some (caseC.hashHex sCase.chunks.flatten) →
      recvStep caseC sCase (Frame.text Msg.endMsg) =
        { sCase with status := RStatus.integrityFailed }) ∧
    ((⟨"f", 1, some "AB", 4⟩ : MetaMsg).hash =
        some (caseC.hashHex sCase.chunks.flatten) →
      recvStep caseC sCase (Frame.text Msg.endMsg) =
        { sCase with downloadUrl := some sCase.chunks.flatten,
                     status := RStatus.completed }) :=
  final_hash_exact_comparison caseC sCase ⟨"f", 1, some "AB", 4⟩ rfl rfl

/-! ## C4: second header before a body -/

/-- C4 counterexample: with header `⟨[9], 7⟩` stashed and its body still
pending, a second `chunk` header `⟨[2], 3⟩` arrives: the new header
replaces the stashed one (and no error is raised), contradicting the claim
that the new header never replaces the stashed one. -/
theorem second_header_replaces_cex :
    (recvStep trivC sMid (Frame.text (Msg.chunk ⟨[2], 3⟩))).pendingChunkInfo =
      some ⟨[2], 3⟩ ∧
    (⟨[2], 3⟩ : ChunkMsg) ≠ ⟨[9], 7⟩ := by
  exact ⟨rfl, by decide⟩

/-- C4 amended: receiving a `chunk` header always overwrites
`pendingChunkInfo` and `expectingBinary`, whether or not a header is
already pending: the newly arrived header replaces the stashed one, no
error is raised and no other state changes — the policy applied
consistently is last-header-wins, not keep-the-stashed-header. -/
theorem second_header_replaces (C : CryptoModel) (s : RecvState)
    (cm : ChunkMsg) :
    recvStep C s (Frame.text (Msg.chunk cm)) =
      { s with pendingChunkInfo := some cm, expectingBinary := cm.len } :=
  recvStep_header C s cm

/-! ## C5: stray binary frame with no pending header -/

/-- C5: a binary frame arriving while no `chunk` header is pending is
dropped without crashing: the session state (chunks, byte counter, status,
everything) is unchanged, and any subsequently received frames — in
particular legitimate header/body pairs — are processed exactly as if the
stray frame had never arrived. -/
theorem stray_binary_dropped (C : CryptoModel) (s : RecvState)
    (d : List Byte) (rest : List Frame) (hp : s.pendingChunkInfo = none) :
    recvStep C s (Frame.binary d) = s ∧
    recvRun C s (Frame.binary d :: rest) = recvRun C s rest := by
  have h1 : recvStep C s (Frame.binary d) = s := by
    simp only [recvStep, hp]
  exact ⟨h1, by rw [recvRun_cons, h1]⟩

/-- C5 witness: a stray binary frame delivered to the freshly bound
receiver is dropped, and a following frame sequence behaves as if the stray
frame had never arrived. -/
theorem stray_binary_dropped_witness :
    recvStep trivC (initRecv 0) (Frame.binary [7]) = initRecv 0 ∧
    recvRun trivC (initRecv 0)
        (Frame.binary [7] :: [Frame.text Msg.endMsg]) =
      recvRun trivC (initRecv 0) [Frame.text Msg.endMsg] :=
  stray_binary_dropped trivC (initRecv 0) [7] [Frame.text Msg.endMsg] rfl

/-! ## C7: mutability of the recorded metadata -/

/-- C7 counterexample: a session that recorded `meta` `⟨"a", 5, "h1", 2⟩`
receives a second `meta` `⟨"b", 9, "h2", 4⟩`: the stored metadata — and
with it the expected size and expected hash — changes to the new message's
values. -/
theorem meta_overwritten_cex :
    (recvStep trivC
        ⟨some ⟨"a", 5, some "h1", 2⟩, 0, [], 0, none, some 3, 1,
          RStatus.receiving "a" 5, none, [], [Msg.ekey 1]⟩
        (Frame.text (Msg.meta ⟨"b", 9, some "h2", 4⟩))).meta =
      some ⟨"b", 9, some "h2", 4⟩ ∧
    (⟨"b", 9, some "h2", 4⟩ : MetaMsg) ≠ ⟨"a", 5, some "h1", 2⟩ := by
  exact ⟨rfl, by decide⟩

/-- C7 amended: the recorded metadata is not immutable — every received
`meta` frame, first or later, overwrites the stored metadata, so the
receiver's expected size and expected hash follow the latest `meta`; the
handler also re-derives the AES key from the new message's public key and
emits a fresh `ekey` reply. -/
theorem meta_follows_latest (C : CryptoModel) (s : RecvState) (mm : MetaMsg) :
    (recvStep C s (Frame.text (Msg.meta mm))).meta = some mm ∧
    (recvStep C s (Frame.text (Msg.meta mm))).aesKey =
      some (C.derive s.myPriv mm.ecdhPub) ∧
    (recvStep C s (Frame.text (Msg.meta mm))).sent =
      s.sent ++ [Msg.ekey (C.pubOf s.myPriv)] :=
  ⟨rfl, rfl, rfl⟩

/-! ## C8: the meta frame's fields -/

/-- C8 counterexample: the `meta` frame of a concrete sender run serializes
to the ordered fields `type, name, size, hash, ecdhPub` — the exchange
public key travels under `ecdhPub`, and no field `exchangePublicKey`
exists. -/
theorem meta_field_name_cex :
    (sendFile trivC 0 1 iv0 rp0 "f" [1, 2, 3]).frames.head? =
      some (Frame.text (Msg.meta ⟨"f", 3, some "3", 0⟩)) ∧
    (serializeMeta ⟨"f", 3, some "3", 0⟩).map Prod.fst =
      ["type", "name", "size", "hash", "ecdhPub"] ∧
    "exchangePublicKey" ∉ (serializeMeta ⟨"f", 3, some "3", 0⟩).map Prod.fst := by
  refine ⟨rfl, rfl, by decide⟩

/-- C8 amended: the `meta` text frame emitted by the sender is a single
structured object with exactly the fields `type:"meta"`, `name`, `size`,
`hash` and `ecdhPub` — the exported exchange public key is carried under
the field name `ecdhPub` (the wire-message contract's
`exchangePublicKey` name does not appear on the wire). -/
theorem meta_frame_fields (C : CryptoModel) (myPriv peerPub : Nat)
    (ivs : Nat → List Nat) (report : Nat → Bool) (name : String)
    (file : List Byte) :
    (sendFile C myPriv peerPub ivs report name file).frames.head? =
      some (Frame.text (Msg.meta
        ⟨name, file.length, some (C.hashHex file), C.pubOf myPriv⟩)) ∧
    serializeMeta ⟨name, file.length, some (C.hashHex file), C.pubOf myPriv⟩ =
      [("type", JVal.s "meta"), ("name", JVal.s name),
        ("size", JVal.n file.length), ("hash", JVal.s (C.hashHex file)),
        ("ecdhPub", JVal.jwk (C.pubOf myPriv))] := by
  exact ⟨rfl, rfl⟩

/-! ## C10: end with no recorded hash -/

/-- C10: if `end` arrives in a session where no `meta` was ever received,
or where the recorded `meta` carries no hash (or an empty, hence falsy,
hash string), the integrity verification is skipped entirely and the
accumulated output is still exposed to the caller as a completed, valid
download. -/
theorem end_without_hash_completes (C : CryptoModel) (s : RecvState)
    (h : s.meta = none ∨ ∃ mm, s.meta = some mm ∧ hashTruthy mm.hash = false) :
    recvStep C s (Frame.text Msg.endMsg) =
      { s with downloadUrl := some s.chunks.flatten,
               status := RStatus.completed } := by
  rcases h with h | ⟨mm, hm, hh⟩
  · simp only [recvStep, h]
  · simp only [recvStep, hm]
    rw [if_neg]
    rintro ⟨h1, -⟩
    rw [hh] at h1
    exact Bool.false_ne_true h1

/-- C10 witness: `end` delivered to the freshly bound receiver (no `meta`
ever received) exposes the (empty) accumulated output as completed. -/
theorem end_without_hash_completes_witness :
    recvStep trivC (initRecv 0) (Frame.text Msg.endMsg) =
      { initRecv 0 with downloadUrl := some (initRecv 0).chunks.flatten,
                        status := RStatus.completed } :=
  end_without_hash_completes trivC (initRecv 0) (Or.inl rfl)

/-! ## C6: sender chunking and framing -/

/-- C6 counterexample: the reader loop re-slices each stream-delivered read
independently, so read boundaries produce short mid-file chunks.  With the
file `[1, 2, 3, 4]` delivered in two reads `[1, 2, 3]` and `[4]` (read
granularity is implementation-defined, nothing contracts 64 KiB-aligned
reads), the sender emits a non-final chunk of length 3 — the header/body
pair for `[1, 2, 3]` is followed by another chunk — contradicting "only
the final chunk may be shorter than 64 KiB". -/
theorem mid_file_short_chunk_cex :
    (sendFileStream trivC 0 1 iv0 rp0 "f" [1, 2, 3, 4]
        [[1, 2, 3], [4]]).frames =
      [Frame.text (Msg.meta ⟨"f", 4, some (trivC.hashHex [1, 2, 3, 4]),
          trivC.pubOf 0⟩),
        Frame.text (Msg.chunk ⟨[0], 3⟩), Frame.binary [1, 2, 3],
        Frame.text (Msg.chunk ⟨[1], 1⟩), Frame.binary [4],
        Frame.text Msg.endMsg] ∧
    ([[1, 2, 3], [4]] : List (List Byte)).flatten = [1, 2, 3, 4] ∧
    ¬ (∀ c ∈ (([[1, 2, 3], [4]] : List (List Byte)).flatMap
        chunkSegment).dropLast, c.length = CHUNK) := by
  have h3 : chunkSegment [1, 2, 3] = [[1, 2, 3]] := by
    rw [chunkSegment_cons _ (by decide), List.take_of_length_le (by decide),
      List.drop_eq_nil_of_le (by decide), chunkSegment_nil]
  have h4 : chunkSegment [4] = [[4]] := by
    rw [chunkSegment_cons _ (by decide), List.take_of_length_le (by decide),
      List.drop_eq_nil_of_le (by decide), chunkSegment_nil]
  have hflat : ([[1, 2, 3], [4]] : List (List Byte)).flatMap chunkSegment =
      [[1, 2, 3], [4]] := by
    simp [List.flatMap_cons, h3, h4]
  refine ⟨?_, rfl, ?_⟩
  · simp only [sendFileStream, senderOuter_frames, hflat]
    simp [chunkFramesFrom, trivC, iv0]
  · intro hall
    have h1 := hall [1, 2, 3] (by rw [hflat]; simp)
    exact absurd h1 (by decide)

/-- C6 amended: the sender re-slices each stream-delivered read into
at-most-64 KiB pieces: the emitted frame sequence is the `meta` frame, then
for the `i`-th chunk a `chunk` header carrying the `i`-th fresh IV draw and
the exact ciphertext length immediately followed by exactly one binary
ciphertext frame, then `end`; the chunks concatenate back to the file in
strict original byte order; a zero-length file produces zero chunks; every
chunk is nonempty and at most `CHUNK` long; within each delivered read only
the last piece may be shorter than `CHUNK` — so chunks shorter than 64 KiB
can occur mid-file at implementation-defined read boundaries — and only
when the stream delivers the file in a single read is the final chunk the
only possibly-short one. -/
theorem sender_chunking_per_read (C : CryptoModel) (myPriv peerPub : Nat)
    (ivs : Nat → List Nat) (report : Nat → Bool) (name : String)
    (file : List Byte) (segs : List (List Byte))
    (hsegs : segs.flatten = file) :
    (sendFileStream C myPriv peerPub ivs report name file segs).frames =
      Frame.text (Msg.meta ⟨name, file.length, some (C.hashHex file),
          C.pubOf myPriv⟩) ::
        (chunkFramesFrom C (C.derive myPriv peerPub) ivs 0
            (segs.flatMap chunkSegment) ++ [Frame.text Msg.endMsg]) ∧
    (segs.flatMap chunkSegment).flatten = file ∧
    (file = [] → segs.flatMap chunkSegment = []) ∧
    (∀ c ∈ segs.flatMap chunkSegment, c ≠ [] ∧ c.length ≤ CHUNK) ∧
    (∀ v ∈ segs, ∀ c ∈ (chunkSegment v).dropLast, c.length = CHUNK) ∧
    (segs = [file] →
      ∀ c ∈ (segs.flatMap chunkSegment).dropLast, c.length = CHUNK) := by
  refine ⟨?_, ?_, ?_, ?_, ?_, ?_⟩
  · simp [sendFileStream, senderOuter_frames]
  · rw [flatMap_chunkSegment_flatten, hsegs]
  · intro hf
    exact flatMap_chunkSegment_nil segs (by rw [hsegs, hf])
  · intro c hc
    obtain ⟨v, _, hcv⟩ := List.mem_flatMap.mp hc
    exact chunkSegment_mem v c hcv
  · intro v _
    exact chunkSegment_full v
  · intro h
    rw [h]
    have : ([file] : List (List Byte)).flatMap chunkSegment =
        chunkSegment file := by
      simp [List.flatMap_cons]
    rw [this]
    exact chunkSegment_full file

/-- C6 witness: the amended per-read chunking statement evaluated at a
concrete three-byte file delivered in a single read. -/
theorem sender_chunking_per_read_witness :
    (sendFileStream trivC 0 1 iv0 rp0 "f" [1, 2, 3] [[1, 2, 3]]).frames =
      Frame.text (Msg.meta ⟨"f", ([1, 2, 3] : List Byte).length,
          some (trivC.hashHex [1, 2, 3]), trivC.pubOf 0⟩) ::
        (chunkFramesFrom trivC (trivC.derive 0 1) iv0 0
            (([[1, 2, 3]] : List (List Byte)).flatMap chunkSegment) ++
          [Frame.text Msg.endMsg]) ∧
    (([[1, 2, 3]] : List (List Byte)).flatMap chunkSegment).flatten =
      [1, 2, 3] ∧
    (([1, 2, 3] : List Byte) = [] →
      ([[1, 2, 3]] : List (List Byte)).flatMap chunkSegment = []) ∧
    (∀ c ∈ ([[1, 2, 3]] : List (List Byte)).flatMap chunkSegment,
      c ≠ [] ∧ c.length ≤ CHUNK) ∧
    (∀ v ∈ ([[1, 2, 3]] : List (List Byte)),
      ∀ c ∈ (chunkSegment v).dropLast, c.length = CHUNK) ∧
    (([[1, 2, 3]] : List (List Byte)) = [[1, 2, 3]] →
      ∀ c ∈ (([[1, 2, 3]] : List (List Byte)).flatMap
        chunkSegment).dropLast, c.length = CHUNK) :=
  sender_chunking_per_read trivC 0 1 iv0 rp0 "f" [1, 2, 3] [[1, 2, 3]] rfl

/-! ## Progress arithmetic lemmas -/

theorem pct_le_pct {a b c : ℚ} (hc : 0 ≤ c) (h : a ≤ b) :
    a / c * 100 ≤ b / c * 100 := by
  rcases eq_or_lt_of_le hc with h0 | h0
  · rw [← h0]
    simp
  · exact mul_le_mul_of_nonneg_right ((div_le_div_iff_of_pos_right h0).mpr h)
      (by norm_num)

theorem sumLen_cons_cast (c : List Byte) (cs : List (List Byte)) :
    ((((c :: cs).map List.length).sum : Nat) : ℚ) =
      (c.length : ℚ) + ((cs.map List.length).sum : ℚ) := by
  simp only [List.map_cons, List.sum_cons, Nat.cast_add]

theorem senderProgress_bounds (report : Nat → Bool) (total : Nat)
    (cs : List (List Byte)) :
    ∀ sent i, ∀ e ∈ senderProgress report total sent i cs,
      (sent : ℚ) / (total : ℚ) * 100 ≤ e ∧
      e ≤ ((sent : ℚ) + ((cs.map List.length).sum : ℚ)) / (total : ℚ) * 100 := by
  induction cs with
  | nil =>
    intro sent i e he
    simp [senderProgress] at he
  | cons c cs ih =>
    intro sent i e he
    simp only [senderProgress, List.mem_append] at he
    have htot : (0 : ℚ) ≤ (total : ℚ) := Nat.cast_nonneg total
    have hc0 : (0 : ℚ) ≤ (c.length : ℚ) := Nat.cast_nonneg c.length
    have hs0 : (0 : ℚ) ≤ ((cs.map List.length).sum : ℚ) := Nat.cast_nonneg _
    rcases he with he | he
    · by_cases hr : report i = true
      · rw [if_pos hr, List.mem_singleton] at he
        subst he
        refine ⟨pct_le_pct htot (by linarith), pct_le_pct htot ?_⟩
        rw [sumLen_cons_cast]
        linarith
      · rw [if_neg hr] at he
        simp at he
    · have hb := ih (sent + c.length) (i + 1) e he
      rw [Nat.cast_add] at hb
      constructor
      · exact le_trans (pct_le_pct htot (by linarith)) hb.1
      · refine le_trans hb.2 (pct_le_pct htot ?_)
        rw [sumLen_cons_cast]
        linarith

theorem senderProgress_chain (report : Nat → Bool) (total : Nat)
    (cs : List (List Byte)) :
    ∀ sent i, List.Chain' (fun a b => a ≤ b)
      (senderProgress report total sent i cs) := by
  induction cs with
  | nil =>
    intro sent i
    simp [senderProgress]
  | cons c cs ih =>
    intro sent i
    simp only [senderProgress]
    by_cases hr : report i = true
    · rw [if_pos hr, List.singleton_append, List.chain'_cons']
      refine ⟨fun y hy => ?_, ih (sent + c.length) (i + 1)⟩
      have hb := (senderProgress_bounds report total cs (sent + c.length)
        (i + 1) y (List.mem_of_mem_head? hy)).1
      rw [Nat.cast_add] at hb
      exact hb
    · rw [if_neg hr, List.nil_append]
      exact ih (sent + c.length) (i + 1)

theorem recvProgress_bounds (size : Nat) (cs : List (List Byte)) :
    ∀ rb, ∀ e ∈ recvProgress size rb cs,
      (rb : ℚ) / (size : ℚ) * 100 ≤ e ∧
      e ≤ ((rb : ℚ) + ((cs.map List.length).sum : ℚ)) / (size : ℚ) * 100 := by
  induction cs with
  | nil =>
    intro rb e he
    simp [recvProgress] at he
  | cons c cs ih =>
    intro rb e he
    simp only [recvProgress, List.mem_append] at he
    have htot : (0 : ℚ) ≤ (size : ℚ) := Nat.cast_nonneg size
    have hc0 : (0 : ℚ) ≤ (c.length : ℚ) := Nat.cast_nonneg c.length
    have hs0 : (0 : ℚ) ≤ ((cs.map List.length).sum : ℚ) := Nat.cast_nonneg _
    rcases he with he | he
    · by_cases hsz : size ≠ 0
      · rw [if_pos hsz, List.mem_singleton] at he
        subst he
        refine ⟨pct_le_pct htot (by linarith), pct_le_pct htot ?_⟩
        rw [sumLen_cons_cast]
        linarith
      · rw [if_neg hsz] at he
        simp at he
    · have hb := ih (rb + c.length) e he
      rw [Nat.cast_add] at hb
      constructor
      · exact le_trans (pct_le_pct htot (by linarith)) hb.1
      · refine le_trans hb.2 (pct_le_pct htot ?_)
        rw [sumLen_cons_cast]
        linarith

theorem recvProgress_chain (size : Nat) (cs : List (List Byte)) :
    ∀ rb, List.Chain' (fun a b => a ≤ b) (recvProgress size rb cs) := by
  induction cs with
  | nil =>
    intro rb
    simp [recvProgress]
  | cons c cs ih =>
    intro rb
    simp only [recvProgress]
    by_cases hsz : size ≠ 0
    · rw [if_pos hsz, List.singleton_append, List.chain'_cons']
      refine ⟨fun y hy => ?_, ih (rb + c.length)⟩
      have hb := (recvProgress_bounds size cs (rb + c.length) y
        (List.mem_of_mem_head? hy)).1
      rw [Nat.cast_add] at hb
      exact hb
    · rw [if_neg hsz, List.nil_append]
      exact ih (rb + c.length)

theorem recvProgress_ne_nil (size : Nat) (hsz : size ≠ 0) (rb : Nat)
    (c : List Byte) (cs : List (List Byte)) :
    recvProgress size rb (c :: cs) ≠ [] := by
  simp [recvProgress, hsz]

theorem recvProgress_getLast (size : Nat) (hsz : size ≠ 0)
    (cs : List (List Byte)) :
    ∀ rb, cs ≠ [] →
      (recvProgress size rb cs).getLast? =
        some (((rb : ℚ) + ((cs.map List.length).sum : ℚ)) / (size : ℚ) * 100) := by
  induction cs with
  | nil =>
    intro rb h
    exact absurd rfl h
  | cons c cs ih =>
    intro rb _
    have hcons : recvProgress size rb (c :: cs) =
        (((rb : ℚ) + (c.length : ℚ)) / (size : ℚ) * 100) ::
          recvProgress size (rb + c.length) cs := by
      simp only [recvProgress]
      rw [if_pos hsz, List.singleton_append]
    by_cases hcs : cs = []
    · subst hcs
      rw [hcons]
      simp only [recvProgress, List.getLast?_singleton, sumLen_cons_cast]
      simp
    · obtain ⟨d, ds, hds⟩ := List.exists_cons_of_ne_nil hcs
      have hne : recvProgress size (rb + c.length) cs ≠ [] := by
        rw [hds]
        exact recvProgress_ne_nil size hsz (rb + c.length) d ds
      obtain ⟨b, t, hbt⟩ := List.exists_cons_of_ne_nil hne
      rw [hcons, hbt, List.getLast?_cons_cons, ← hbt, ih (rb + c.length) hcs]
      rw [Nat.cast_add, sumLen_cons_cast]
      congr 2
      ring

/-- The complete receiver state after consuming an honest sender's whole
frame sequence: metadata recorded, all chunks decrypted and accumulated in
order, transfer completed with the original file exposed, and the progress
log equal to the cumulative per-chunk percentages. -/
theorem recvRun_full (C : CryptoModel) (sendPriv recvPriv : Nat)
    (ivs : Nat → List Nat) (report : Nat → Bool) (name : String)
    (file : List Byte)
    (hComm : ∀ a b : Nat, C.derive a (C.pubOf b) = C.derive b (C.pubOf a))
    (hRound : ∀ (k : Nat) (iv : List Nat) (p : List Byte),
      C.dec k iv (C.enc k iv p) = some p) :
    recvRun C (initRecv recvPriv)
        (sendFile C sendPriv (C.pubOf recvPriv) ivs report name file).frames =
      ⟨some ⟨name, file.length, some (C.hashHex file), C.pubOf sendPriv⟩,
        file.length, chunkSegment file, 0, none,
        some (C.derive sendPriv (C.pubOf recvPriv)), recvPriv,
        RStatus.completed, some file,
        recvProgress file.length 0 (chunkSegment file),
        [Msg.ekey (C.pubOf recvPriv)]⟩ := by
  have hframes : (sendFile C sendPriv (C.pubOf recvPriv) ivs report name
      file).frames =
      Frame.text (Msg.meta ⟨name, file.length, some (C.hashHex file),
          C.pubOf sendPriv⟩) ::
        (chunkFramesFrom C (C.derive sendPriv (C.pubOf recvPriv)) ivs 0
            (chunkSegment file) ++
          [Frame.text Msg.endMsg]) := by
    simp [sendFile, senderLoop_frames]
  rw [hframes, recvRun_cons, recvStep_meta_init, hComm recvPriv sendPriv,
    recvRun_append,
    recvRun_chunkFrames C (C.derive sendPriv (C.pubOf recvPriv)) ivs
      (chunkSegment file) 0
      (hRound (C.derive sendPriv (C.pubOf recvPriv))),
    recvRun_cons, recvRun_nil, recvStep_endMsg_mk]
  rw [if_neg]
  · simp [chunkSegment_flatten, chunkSegment_length_sum]
  · rintro ⟨-, hne⟩
    exact hne (by simp [chunkSegment_flatten])

/-! ## C9: progress reporting -/

/-- C9 counterexample: in a complete zero-byte transfer the sender's
progress sequence is `[100]`, but the receiver — although it completes the
session and exposes the (empty) output — reports no progress value at all,
so the receiver's sequence never reaches 100 (its progress guard
`meta?.size` is falsy for size 0). -/
theorem zero_byte_receiver_no_progress_cex :
    (recvRun trivC (initRecv 1)
        (sendFile trivC 0 (trivC.pubOf 1) iv0 rp0 "f" []).frames).progressLog
      = [] ∧
    (recvRun trivC (initRecv 1)
        (sendFile trivC 0 (trivC.pubOf 1) iv0 rp0 "f" []).frames).status
      = RStatus.completed ∧
    (sendFile trivC 0 (trivC.pubOf 1) iv0 rp0 "f" []).progressLog = [100] := by
  have hf : (sendFile trivC 0 (trivC.pubOf 1) iv0 rp0 "f"
      ([] : List Byte)).frames =
      [Frame.text (Msg.meta ⟨"f", 0, some (trivC.hashHex []), trivC.pubOf 0⟩),
        Frame.text Msg.endMsg] := by
    rw [sendFile]
    simp [senderLoop_nil]
  have hl : (sendFile trivC 0 (trivC.pubOf 1) iv0 rp0 "f"
      ([] : List Byte)).progressLog = [100] := by
    rw [sendFile]
    simp [senderLoop_nil]
  refine ⟨?_, ?_, hl⟩ <;> rw [hf] <;> rfl

/-- C9 amended: over an honest session, the sender's reported progress
sequence is monotonically non-decreasing, bounded by 100, and ends at
exactly 100 (including the zero-byte case); the receiver's sequence is
monotonically non-decreasing and bounded by 100, and ends at exactly 100
for every nonempty file — but for a zero-byte file the receiver reports no
progress value at all, so its sequence does not reach 100 at completion. -/
theorem progress_reporting (C : CryptoModel) (sendPriv recvPriv : Nat)
    (ivs : Nat → List Nat) (report : Nat → Bool) (name : String)
    (file : List Byte)
    (hComm : ∀ a b : Nat, C.derive a (C.pubOf b) = C.derive b (C.pubOf a))
    (hRound : ∀ (k : Nat) (iv : List Nat) (p : List Byte),
      C.dec k iv (C.enc k iv p) = some p) :
    List.Chain' (fun a b => a ≤ b)
      (sendFile C sendPriv (C.pubOf recvPriv) ivs report name
        file).progressLog ∧
    (∀ e ∈ (sendFile C sendPriv (C.pubOf recvPriv) ivs report name
        file).progressLog, e ≤ 100) ∧
    (sendFile C sendPriv (C.pubOf recvPriv) ivs report name
        file).progressLog.getLast? = some 100 ∧
    List.Chain' (fun a b => a ≤ b)
      (recvRun C (initRecv recvPriv)
        (sendFile C sendPriv (C.pubOf recvPriv) ivs report name
          file).frames).progressLog ∧
    (∀ e ∈ (recvRun C (initRecv recvPriv)
        (sendFile C sendPriv (C.pubOf recvPriv) ivs report name
          file).frames).progressLog, e ≤ 100) ∧
    (file ≠ [] →
      (recvRun C (initRecv recvPriv)
        (sendFile C sendPriv (C.pubOf recvPriv) ivs report name
          file).frames).progressLog.getLast? = some 100) ∧
    (file = [] →
      (recvRun C (initRecv recvPriv)
        (sendFile C sendPriv (C.pubOf recvPriv) ivs report name
          file).frames).progressLog = []) := by
  have hslog : (sendFile C sendPriv (C.pubOf recvPriv) ivs report name
      file).progressLog =
      senderProgress report file.length 0 0 (chunkSegment file) ++ [100] := by
    simp [sendFile, senderLoop_log]
  have hrlog : (recvRun C (initRecv recvPriv)
      (sendFile C sendPriv (C.pubOf recvPriv) ivs report name
        file).frames).progressLog =
      recvProgress file.length 0 (chunkSegment file) := by
    rw [recvRun_full C sendPriv recvPriv ivs report name file hComm hRound]
  have hcap : ∀ total : Nat, total ≠ 0 →
      (((0 : Nat) : ℚ) + ((total : Nat) : ℚ)) / ((total : Nat) : ℚ) * 100 =
        100 := by
    intro total h0
    rw [Nat.cast_zero, zero_add, div_self (Nat.cast_ne_zero.mpr h0), one_mul]
  have hsle : ∀ e ∈ senderProgress report file.length 0 0 (chunkSegment file),
      e ≤ 100 := by
    intro e he
    by_cases h0 : file.length = 0
    · rw [List.length_eq_zero.mp h0, chunkSegment_nil] at he
      simp [senderProgress] at he
    · have hb := (senderProgress_bounds report file.length (chunkSegment file)
        0 0 e he).2
      rw [chunkSegment_length_sum, hcap file.length h0] at hb
      exact hb
  have hrle : ∀ e ∈ recvProgress file.length 0 (chunkSegment file),
      e ≤ 100 := by
    intro e he
    by_cases h0 : file.length = 0
    · rw [List.length_eq_zero.mp h0, chunkSegment_nil] at he
      simp [recvProgress] at he
    · have hb := (recvProgress_bounds file.length (chunkSegment file) 0 e
        he).2
      rw [chunkSegment_length_sum, hcap file.length h0] at hb
      exact hb
  refine ⟨?_, ?_, ?_, ?_, ?_, ?_, ?_⟩
  · rw [hslog]
    rw [List.chain'_append]
    refine ⟨senderProgress_chain report file.length (chunkSegment file) 0 0,
      List.chain'_singleton 100, ?_⟩
    intro x hx y hy
    have hx' := hsle x (List.mem_of_mem_getLast? hx)
    simp only [List.head?_cons, Option.mem_def, Option.some.injEq] at hy
    rw [← hy]
    exact hx'
  · intro e he
    rw [hslog] at he
    rcases List.mem_append.mp he with h | h
    · exact hsle e h
    · simp only [List.mem_singleton] at h
      rw [h]
  · rw [hslog, List.getLast?_concat]
  · rw [hrlog]
    exact recvProgress_chain file.length (chunkSegment file) 0
  · intro e he
    rw [hrlog] at he
    exact hrle e he
  · intro hfile
    have h0 : file.length ≠ 0 := by
      intro h
      exact hfile (List.length_eq_zero.mp h)
    rw [hrlog, recvProgress_getLast file.length h0 (chunkSegment file) 0
      (chunkSegment_ne_nil_of_ne_nil file hfile), chunkSegment_length_sum,
      hcap file.length h0]
  · intro hfile
    rw [hrlog, hfile, chunkSegment_nil]
    rfl

/-- C9 witness: the amended progress statement evaluated at a concrete
three-byte transfer under the concrete model `trivC`. -/
theorem progress_reporting_witness :
    List.Chain' (fun a b => a ≤ b)
      (sendFile trivC 0 (trivC.pubOf 1) iv0 rp0 "f" [1, 2, 3]).progressLog ∧
    (∀ e ∈ (sendFile trivC 0 (trivC.pubOf 1) iv0 rp0 "f"
        [1, 2, 3]).progressLog, e ≤ 100) ∧
    (sendFile trivC 0 (trivC.pubOf 1) iv0 rp0 "f"
        [1, 2, 3]).progressLog.getLast? = some 100 ∧
    List.Chain' (fun a b => a ≤ b)
      (recvRun trivC (initRecv 1)
        (sendFile trivC 0 (trivC.pubOf 1) iv0 rp0 "f"
          [1, 2, 3]).frames).progressLog ∧
    (∀ e ∈ (recvRun trivC (initRecv 1)
        (sendFile trivC 0 (trivC.pubOf 1) iv0 rp0 "f"
          [1, 2, 3]).frames).progressLog, e ≤ 100) ∧
    (([1, 2, 3] : List Byte) ≠ [] →
      (recvRun trivC (initRecv 1)
        (sendFile trivC 0 (trivC.pubOf 1) iv0 rp0 "f"
          [1, 2, 3]).frames).progressLog.getLast? = some 100) ∧
    (([1, 2, 3] : List Byte) = [] →
      (recvRun trivC (initRecv 1)
        (sendFile trivC 0 (trivC.pubOf 1) iv0 rp0 "f"
          [1, 2, 3]).frames).progressLog = []) :=
  progress_reporting trivC 0 1 iv0 rp0 "f" [1, 2, 3]
    (fun a b => Nat.add_comm a b) (fun _ _ _ => rfl)

end P2PShare
